import Mathlib

/-!
Verification of the lexicon-enhanced lemmatization core.

This file gives a shallow embedding, in Lean 4, of the parts of the
`lexenlem` code base that the specification talks about:

* the reserved control symbols and ids (`seq2seq_constant.py`);
* vocabulary construction (`models/lemma/vocab.py`, `Vocab.build_vocab`)
  together with the symbol/id mapping contract of the vocabulary mapper
  (the `BaseVocab.map` / `BaseVocab.unmap` pair lives in
  `models/common/vocab.py`, which is not part of the sources at hand, so
  those two operations are modelled from the specification);
* the lemma-candidate collapsing step
  (`preprocessing/vabamorf_pipeline.py`, `processed_lemma_candidates`);
* the prediction postprocessing step (`models/lemma/trainer.py`,
  `Trainer.postprocess` / `TrainerVb.postprocess`, with
  `models/lemma/edit.py`);
* the lexicon-dropout stub construction (`seq2seq_model.py`,
  `Seq2SeqModel.forward`);
* the masked soft-dot attention weights (`seq2seq_modules.py`,
  `SoftDotAttention.forward`) and the double-attention decoder cell
  (`LSTMDoubleAttention`), over exact real arithmetic;
* the greedy decoding loop (`seq2seq_model.py`, `Seq2SeqModel.predict`),
  with the per-step numeric computation abstracted into an oracle;
* the length-sort / inverse-permutation batching helpers and the
  beam-search engine, both of which are absent from the sources at hand
  and are therefore modelled from the specification.

Pure functions of the source become Lean functions; the stateful decode
loop becomes a recursive function on an explicit state record; tensors of
per-example data become lists.
-/

namespace LexEnLem

/-! ### Constants (`models/common/seq2seq_constant.py`) -/

def PAD : String := "<PAD>"

def PAD_ID : Nat := 0

def UNK : String := "<UNK>"

def UNK_ID : Nat := 1

def SOS : String := "<SOS>"

def SOS_ID : Nat := 2

def EOS : String := "<EOS>"

def EOS_ID : Nat := 3

def FILL : String := "<FILL>"

def FILL_ID : Nat := 4

/-- Model of the constant `VOCAB_PREFIX = [PAD, UNK, SOS, EOS, FILL]`. -/
def VOCAB_RESERVED : List String := [PAD, UNK, SOS, EOS, FILL]

/-! ### Vocabulary (`models/lemma/vocab.py` and the mapper contract)

`Vocab.build_vocab` sets
`self._id2unit = VOCAB_PREFIX + list(sorted(list(counter.keys()), key=lambda k: counter[k], reverse=True))`
and `self._unit2id = \x7bw: i for i, w in enumerate(self._id2unit)\x7d`.
`Counter` keys enumerate in first-occurrence order, and Python `sorted`
is stable, so the data part is the distinct units of the data, stably
sorted by descending count.  A Python dict comprehension keeps the last
binding of a repeated key, so `_unit2id` sends a unit to the last index
at which it occurs in `_id2unit`. -/

/-- Distinct elements of a list in first-occurrence order (the key order
of a Python `Counter` built from the list). -/
def firstOccurrences (l : List String) : List String :=
  l.foldl (fun acc a => if a ∈ acc then acc else acc ++ [a]) []

/-- Model of the built vocabulary: just the `_id2unit` table; `_unit2id`
is recomputed from it by `lastIdxOf` below. -/
structure PyVocab where
  id2unit : List String

/-- Index of the last occurrence of `w` in the list, starting the count
at `i`; `none` if absent.  This is the value a Python dict comprehension
`\x7bw: i for i, w in enumerate(l)\x7d` assigns to the key `w`. -/
def lastIdxOfFrom : List String → String → Nat → Option Nat
  | [], _, _ => none
  | a :: rest, w, i =>
    match lastIdxOfFrom rest w (i + 1) with
    | some j => some j
    | none => if a = w then some i else none

def lastIdxOf (l : List String) (w : String) : Option Nat :=
  lastIdxOfFrom l w 0

/-- Model of `Vocab.build_vocab` from `models/lemma/vocab.py`. -/
def buildVocab (data : List String) : PyVocab :=
  ⟨VOCAB_RESERVED ++
    ((firstOccurrences data).mergeSort
      (fun a b => decide (data.count b ≤ data.count a)))⟩

/-- Modelled from the spec: `BaseVocab.map` of `models/common/vocab.py`
is not among the sources at hand; the spec states
`map(sequence_of_symbols) -> sequence_of_ids` with
"unknown symbol → reserved unknown id".  A known symbol gets the id the
built `_unit2id` dict assigns to it (the last index of the symbol in
`_id2unit`); an unknown symbol gets `UNK_ID`. -/
def vmap (v : PyVocab) (units : List String) : List Nat :=
  units.map fun u =>
    match lastIdxOf v.id2unit u with
    | some i => i
    | none => UNK_ID

/-- Modelled from the spec: `BaseVocab.unmap` of `models/common/vocab.py`
is not among the sources at hand; the spec states
`unmap(sequence_of_ids) -> sequence_of_symbols`, a total inverse for all
ids actually produced.  An id is sent to the unit at that position of
`_id2unit`; ids out of range never arise for produced ids (the default
is arbitrary). -/
def vunmap (v : PyVocab) (ids : List Nat) : List String :=
  ids.map fun i => v.id2unit.getD i ""

/-! ### Lemma-candidate collapsing (`preprocessing/vabamorf_pipeline.py`)

`VbTokenAnalysis.processed_lemma_candidates` returns
`"".join(sorted(list(set(self.lemma_candidates))))`. -/

/-- Sorted list of the distinct candidate strings: model of
`sorted(list(set(cands)))`. -/
def processedCandidateList (cands : List String) : List String :=
  (firstOccurrences cands).mergeSort (fun a b => decide (a ≤ b))

/-- Model of `VbTokenAnalysis.processed_lemma_candidates`. -/
def processedLemmaCandidates (cands : List String) : String :=
  String.join (processedCandidateList cands)

/-! ### Postprocessing (`models/lemma/trainer.py` and `models/lemma/edit.py`) -/

/-- Model of `edit.edit_word`; the unrecognized-id branch raises
`NotImplementedError`, modelled as `none`. -/
def edit_word (word pred : String) (editId : Nat) : Option String :=
  if editId = 1 then some word
  else if editId = 2 then some word.toLower
  else if editId = 0 then some pred
  else none

/-- Substring test: model of the Python expression `constant.UNK in lem`
(string containment). -/
def containsUNK (s : String) : Bool :=
  decide (UNK.data <:+: s.data)

/-- Collects a list of `Option`s, failing if any entry fails. -/
def optionList {α : Type} : List (Option α) → Option (List α)
  | [] => some []
  | a :: rest =>
    match a with
    | none => none
    | some x =>
      match optionList rest with
      | none => none
      | some xs => some (x :: xs)

/-- Model of the final fallback loop shared by `Trainer.postprocess` and
`TrainerVb.postprocess`: an empty or `<UNK>`-containing prediction is
replaced by the original word. -/
def fallbackLoop (edited words : List String) : List String :=
  (edited.zip words).map fun p =>
    if p.1.length = 0 ∨ containsUNK p.1 then p.2 else p.1

/-- Model of `Trainer.postprocess`.  A failed `assert` or a raised
`NotImplementedError` is modelled as `none`.  With `editFlag = false`
this is also `TrainerVb.postprocess` (whose length check raises a
`RuntimeError`, likewise `none` here). -/
def postprocess (editFlag : Bool) (words preds : List String)
    (edits : List Nat) : Option (List String) :=
  if words.length = preds.length then
    Option.map (fun edited => fallbackLoop edited words)
      (cond editFlag
        (if words.length = edits.length then
          optionList
            (List.zipWith3 (fun w p e => edit_word w p e) words preds edits)
        else none)
        (some preds))
  else none

/-- The (possibly edit-adjusted) prediction for example `i`, used to
state what `postprocess` does position by position. -/
def adjustedPred (editFlag : Bool) (words preds : List String)
    (edits : List Nat) (i : Nat) : String :=
  if editFlag then
    (edit_word (words.getD i "") (preds.getD i "") (edits.getD i 0)).getD ""
  else preds.getD i ""

/-! ### Lexicon-dropout stub (`seq2seq_model.py`, `Seq2SeqModel.forward`)

When the dropout draw triggers for an example, the code builds
`lem_stump = [SOS_ID, EOS_ID] + [PAD_ID] * (lem.size(1) - 2)` and
`lem_mask_stump = [0] * 3 + [1] * (lem.size(1) - 3)` and writes both into
the triggered rows. -/

/-- Model of `lem_stump` for a lexicon tensor of width `width`. -/
def lemStump (width : Nat) : List Nat :=
  [SOS_ID, EOS_ID] ++ List.replicate (width - 2) PAD_ID

/-- Model of `lem_mask_stump` for a lexicon tensor of width `width`
(`false` = content, `true` = padding, matching `0` / `1`). -/
def lemMaskStump (width : Nat) : List Bool :=
  List.replicate 3 false ++ List.replicate (width - 3) true

/-! ### Soft-dot attention (`models/common/seq2seq_modules.py`)

Tensors of the per-example computation become lists of reals: a hidden
state is a `List ℝ`, a context is a `List (List ℝ)` (one vector per
source position), a linear layer without bias is its weight matrix
`List (List ℝ)`.  `INFINITY_NUMBER` is `1e12` in
`seq2seq_constant.py` — a finite sentinel, not an actual infinity. -/

noncomputable def INFINITY_NUMBER : ℝ := 10 ^ 12

def dotR (v w : List ℝ) : ℝ :=
  (List.zipWith (fun a b => a * b) v w).sum

def matVec (m : List (List ℝ)) (v : List ℝ) : List ℝ :=
  m.map fun row => dotR row v

def vecAdd (v w : List ℝ) : List ℝ :=
  List.zipWith (fun a b => a + b) v w

/-- Raw attention logits: `attn = torch.bmm(context, target)` where
`target = linear_in(input)`, one dot product per source position. -/
def attnScores (linearIn : List (List ℝ)) (input : List ℝ)
    (context : List (List ℝ)) : List ℝ :=
  context.map fun c => dotR c (matVec linearIn input)

/-- Masking step: `attn.masked_fill(mask, -INFINITY_NUMBER)`. -/
noncomputable def maskedScores (scores : List ℝ) (mask : List Bool) : List ℝ :=
  List.zipWith (fun s m => if m then -INFINITY_NUMBER else s) scores mask

/-- Softmax over a list, as the exact mathematical function computed by
`nn.Softmax(dim=1)`. -/
noncomputable def softmaxList (l : List ℝ) : List ℝ :=
  l.map fun x => Real.exp x / (l.map Real.exp).sum

/-- Normalized attention weights produced by `SoftDotAttention.forward`
for given raw logits and padding mask. -/
noncomputable def attnWeights (scores : List ℝ) (mask : List Bool) : List ℝ :=
  softmaxList (maskedScores scores mask)

/-- Weighted context `torch.bmm(attn3, context)`: the attention-weighted
sum of the context vectors. -/
def weightedSum (attn : List ℝ) (context : List (List ℝ)) : List ℝ :=
  match List.zipWith (fun a c => List.map (fun x => a * x) c) attn context with
  | [] => []
  | v :: vs => vs.foldl vecAdd v

/-- Parameters of one `SoftDotAttention` instance: the two bias-free
linear layers. -/
structure SoftDotAttention where
  linear_in : List (List ℝ)
  linear_out : List (List ℝ)

/-- Model of `SoftDotAttention.forward`: returns `(h_tilde, attn)`.
With `mask = none` the logits are left unmasked, as in the source. -/
noncomputable def softDotForward (A : SoftDotAttention) (input : List ℝ)
    (context : List (List ℝ)) (mask : Option (List Bool)) :
    List ℝ × List ℝ :=
  let scores := attnScores A.linear_in input context
  let attn :=
    match mask with
    | some m => attnWeights scores m
    | none => softmaxList scores
  let weighted := weightedSum attn context
  let h_tilde := (matVec A.linear_out (weighted ++ input)).map Real.tanh
  (h_tilde, attn)

/-! ### Double-attention decoder cell (`LSTMDoubleAttention`)

The cell owns one `nn.LSTMCell`, ONE `SoftDotAttention` instance
(`self.attention_layer`), and one fusing linear layer.  The per-step
body is:
`hidden = lstm_cell(input, hidden)`;
`h_tilde0 = attention_layer(hy, src_ctx, ctx_mask)`;
`h_tilde1 = attention_layer(hy, lex_ctx, lex_mask)`;
`h_tilde = linear(cat(h_tilde0, h_tilde1))`. -/

noncomputable def sigmoidR (x : ℝ) : ℝ :=
  1 / (1 + Real.exp (-x))

/-- Parameters of an `nn.LSTMCell` (input, forget, cell, output gates
stacked in the usual 4h layout). -/
structure LSTMCellParams where
  w_ih : List (List ℝ)
  w_hh : List (List ℝ)
  b_ih : List ℝ
  b_hh : List ℝ

/-- Model of one `nn.LSTMCell` application. -/
noncomputable def lstmCell (P : LSTMCellParams) (x : List ℝ)
    (hc : List ℝ × List ℝ) : List ℝ × List ℝ :=
  let h := hc.1
  let c := hc.2
  let n := h.length
  let gates := vecAdd (vecAdd (matVec P.w_ih x) P.b_ih)
    (vecAdd (matVec P.w_hh h) P.b_hh)
  let ig := (gates.take n).map sigmoidR
  let fg := ((gates.drop n).take n).map sigmoidR
  let gg := ((gates.drop (2 * n)).take n).map Real.tanh
  let og := ((gates.drop (3 * n)).take n).map sigmoidR
  let c1 := vecAdd (List.zipWith (fun a b => a * b) fg c)
    (List.zipWith (fun a b => a * b) ig gg)
  let h1 := List.zipWith (fun a b => a * b) og (c1.map Real.tanh)
  (h1, c1)

/-- Parameters of `LSTMDoubleAttention`: note the single
`attention_layer` field — the module is constructed with exactly one
`SoftDotAttention` instance. -/
structure LSTMDoubleAttention where
  lstm_cell : LSTMCellParams
  attention_layer : SoftDotAttention
  linear : List (List ℝ)

/-- Updated hidden state `hy` after the LSTM-cell transition of one
decoder step. -/
noncomputable def stepHy (M : LSTMDoubleAttention) (input : List ℝ)
    (hidden : List ℝ × List ℝ) : List ℝ :=
  (lstmCell M.lstm_cell input hidden).1

/-- The `h_tilde0` sub-computation of the decoder step: the attention
applied to the word-form context. -/
noncomputable def stepHtilde0 (M : LSTMDoubleAttention) (input : List ℝ)
    (hidden : List ℝ × List ℝ) (srcCtx : List (List ℝ))
    (ctxMask : Option (List Bool)) : List ℝ :=
  (softDotForward M.attention_layer (stepHy M input hidden) srcCtx ctxMask).1

/-- The `h_tilde1` sub-computation of the decoder step: the attention
applied to the lexicon context. -/
noncomputable def stepHtilde1 (M : LSTMDoubleAttention) (input : List ℝ)
    (hidden : List ℝ × List ℝ) (lexCtx : List (List ℝ))
    (lexMask : Option (List Bool)) : List ℝ :=
  (softDotForward M.attention_layer (stepHy M input hidden) lexCtx lexMask).1

/-- Model of one step of `LSTMDoubleAttention.forward`: returns the
fused output and the new `(hidden, cell)` pair. -/
noncomputable def doubleAttnStep (M : LSTMDoubleAttention) (input : List ℝ)
    (hidden : List ℝ × List ℝ) (srcCtx lexCtx : List (List ℝ))
    (ctxMask lexMask : Option (List Bool)) :
    List ℝ × (List ℝ × List ℝ) :=
  (matVec M.linear
    (stepHtilde0 M input hidden srcCtx ctxMask ++
      stepHtilde1 M input hidden lexCtx lexMask),
    lstmCell M.lstm_cell input hidden)

/-! ### Greedy decoding engine (`seq2seq_model.py`, `Seq2SeqModel.predict`)

The numeric part of one decode step (embedding the previous symbols,
running `decode`, taking the per-example arg-max) is abstracted into an
oracle `f : σ → σ × List Nat`, mapping the decoder state (the tensors
`dec_inputs`, `hn`, `cn`, together with the fixed encoder outputs) to
the next state and the per-example arg-max symbols `preds`.  The loop
around it is translated literally:
`while total_done < batch_size and max_len < self.max_dec_len`, with the
per-example update
`if not done[i]: if token == EOS_ID: done[i] = True; total_done += 1
else: output_seqs[i].append(token)`. -/

structure GreedyState (σ : Type) where
  st : σ
  done : List Bool
  totalDone : Nat
  maxLen : Nat
  outputs : List (List Nat)

/-- One pass of the `for i in range(batch_size)` body over all examples:
returns the new `done` flags, the new accumulators, and the number of
newly finished examples (the increment of `total_done`). -/
def stepAll : List Bool → List Nat → List (List Nat) →
    List Bool × List (List Nat) × Nat
  | d :: ds, t :: ts, o :: os =>
    let r := stepAll ds ts os
    if d then (true :: r.1, o :: r.2.1, r.2.2)
    else if t = EOS_ID then (true :: r.1, o :: r.2.1, r.2.2 + 1)
    else (false :: r.1, (o ++ [t]) :: r.2.1, r.2.2)
  | _, _, _ => ([], [], 0)

/-- The decode `while` loop of `Seq2SeqModel.predict`. -/
def greedyLoop {σ : Type} (f : σ → σ × List Nat)
    (batchSize maxDecLen : Nat) (g : GreedyState σ) : GreedyState σ :=
  if h : g.totalDone < batchSize ∧ g.maxLen < maxDecLen then
    let fr := f g.st
    let r := stepAll g.done fr.2 g.outputs
    greedyLoop f batchSize maxDecLen
      ⟨fr.1, r.1, g.totalDone + r.2.2, g.maxLen + 1, r.2.1⟩
  else g
termination_by maxDecLen - g.maxLen
decreasing_by
  exact Nat.sub_lt_sub_left h.2 (Nat.lt_succ_self g.maxLen)

/-- Model of `Seq2SeqModel.predict`: run the loop from the initial state
(`done` all false, `total_done = 0`, `max_len = 0`, empty accumulators)
and return `output_seqs`. -/
def greedyPredict {σ : Type} (f : σ → σ × List Nat)
    (batchSize maxDecLen : Nat) (s0 : σ) : List (List Nat) :=
  (greedyLoop f batchSize maxDecLen
    ⟨s0, List.replicate batchSize false, 0, 0,
      List.replicate batchSize []⟩).outputs

/-! ### Per-example decoding oracle

For the greedy/beam comparison the per-step numeric computation is an
oracle `step : σ → Nat → σ × List ℝ`: fed the decoder state and the
previous emitted symbol, it returns the new state and the vector of
log-probabilities over the vocabulary.  Arg-max with the
first-maximum tie-break (lowest symbol id) models `log_probs.max(1)`. -/

noncomputable def argmaxAux : List ℝ → Nat → ℝ → Nat → Nat
  | [], _, _, bi => bi
  | x :: xs, i, bv, bi =>
    if bv < x then argmaxAux xs (i + 1) x i
    else argmaxAux xs (i + 1) bv bi

/-- Index of the first maximal entry of the list (0 on the empty list). -/
noncomputable def argmaxIdx : List ℝ → Nat
  | [] => 0
  | x :: xs => argmaxAux xs 1 x 0

/-- The greedy loop of `Seq2SeqModel.predict` specialized to a batch of
one example, with the remaining step budget `fuel = max_dec_len -
max_len` made explicit: stop on the budget or on an emitted `EOS`,
otherwise append the arg-max symbol and continue. -/
noncomputable def greedyOne {σ : Type} (step : σ → Nat → σ × List ℝ) :
    Nat → σ → Nat → List Nat
  | 0, _, _ => []
  | Nat.succ fuel, s, prev =>
    let r := step s prev
    let tok := argmaxIdx r.2
    if tok = EOS_ID then []
    else tok :: greedyOne step fuel r.1 tok

/-- Greedy decoding of one example: `max_dec_len` budget, first input
symbol `SOS`. -/
noncomputable def greedyDecodeOne {σ : Type} (step : σ → Nat → σ × List ℝ)
    (maxDecLen : Nat) (s0 : σ) : List Nat :=
  greedyOne step maxDecLen s0 SOS_ID

/-- The batched oracle induced by a per-example step function: the state
carries the previous emitted symbol, the predictions list is the
singleton arg-max.  This is the batch-size-one instance of the oracle
abstracted away in `greedyPredict`. -/
noncomputable def liftStep {σ : Type} (step : σ → Nat → σ × List ℝ) :
    σ × Nat → (σ × Nat) × List Nat :=
  fun p =>
    let r := step p.1 p.2
    let tok := argmaxIdx r.2
    ((r.1, tok), [tok])

/-! ### Beam-search decoding engine

Modelled from the spec: the beam-search engine
(`Seq2SeqModelCombined.predict` and the beam module it drives) is not
among the sources at hand; it is modelled from spec section 4.4.  One
independent beam of width `K` per input example; per step: feed each
live hypothesis to the decoder, form `prefix score + next-symbol
log-probability` for every (hypothesis × symbol) pair, keep the top `K`
by combined score with ties resolved by stable order of
(hypothesis index, symbol id), re-index carried state by back-pointer,
and mark the beam done when its best hypothesis has emitted the stop
symbol; at termination strip the trailing stop symbol of the best
hypothesis and return the sequence. -/

structure BeamHyp (σ : Type) where
  score : ℝ
  emitted : List Nat
  st : σ
  lastSym : Nat

/-- Candidate produced by expanding hypothesis number `q` with symbol
`v`: combined score, back-pointer `q`, added symbol `v`. -/
structure BeamCand where
  score : ℝ
  q : Nat
  v : Nat

/-- Priority order of spec section 4.4: higher combined score first,
ties by the stable lexicographic order of (hypothesis index, symbol id). -/
noncomputable def candBefore (a b : BeamCand) : Bool :=
  if a.score = b.score then
    decide (a.q < b.q ∨ (a.q = b.q ∧ a.v ≤ b.v))
  else decide (b.score < a.score)

/-- All `K × vocabulary` candidates of one step, in (hypothesis index,
symbol id) order.  `stepped` pairs each hypothesis with its decoder
output `(new state, log-probabilities)`. -/
noncomputable def beamCands {σ : Type}
    (stepped : List (BeamHyp σ × (σ × List ℝ))) : List BeamCand :=
  (stepped.enum.map fun p =>
    (p.2.2.2.enum.map fun q => BeamCand.mk (p.2.1.score + q.2) p.1 q.1)).flatten

/-- Top-`K` selection over the candidate space, then reconstruction of
the surviving hypotheses through their back-pointers. -/
noncomputable def beamSelect {σ : Type} (K : Nat)
    (stepped : List (BeamHyp σ × (σ × List ℝ))) : List (BeamHyp σ) :=
  (((beamCands stepped).mergeSort candBefore).take K).filterMap fun c =>
    match stepped.get? c.q with
    | some p => some ⟨c.score, p.1.emitted ++ [c.v], p.2.1, c.v⟩
    | none => none

/-- Strip one trailing stop symbol, as at beam termination. -/
def stripLastEOS (l : List Nat) : List Nat :=
  if l.getLast? = some EOS_ID then l.dropLast else l

/-- The beam loop for one example: step, select survivors, finish when
the best hypothesis ends with the stop symbol or the budget runs out;
the returned sequence is the best hypothesis stripped of its trailing
stop symbol.  The empty-beam fallback returns the empty sequence (the
spec calls that state a fatal internal invariant violation). -/
noncomputable def beamLoop {σ : Type} (step : σ → Nat → σ × List ℝ)
    (K : Nat) : Nat → List (BeamHyp σ) → List Nat
  | 0, hyps =>
    match hyps with
    | [] => []
    | h :: _ => stripLastEOS h.emitted
  | Nat.succ fuel, hyps =>
    let stepped := hyps.map fun h => (h, step h.st h.lastSym)
    let survivors := beamSelect K stepped
    match survivors with
    | [] => []
    | best :: _ =>
      if best.emitted.getLast? = some EOS_ID then stripLastEOS best.emitted
      else beamLoop step K fuel survivors

/-- Beam-search decoding of one example: a single initial hypothesis
with the `START` symbol and zero score. -/
noncomputable def beamDecodeOne {σ : Type} (step : σ → Nat → σ × List ℝ)
    (K maxDecLen : Nat) (s0 : σ) : List Nat :=
  beamLoop step K maxDecLen [⟨0, [], s0, SOS_ID⟩]

/-- Beam-search decoding of a batch: one independent beam per example. -/
noncomputable def beamDecodeBatch {σ : Type} (step : σ → Nat → σ × List ℝ)
    (K maxDecLen : Nat) (inits : List σ) : List (List Nat) :=
  inits.map fun s0 => beamDecodeOne step K maxDecLen s0

/-- Greedy decoding of a batch of independent examples. -/
noncomputable def greedyDecodeBatch {σ : Type} (step : σ → Nat → σ × List ℝ)
    (maxDecLen : Nat) (inits : List σ) : List (List Nat) :=
  inits.map fun s0 => greedyDecodeOne step maxDecLen s0

/-! ### Length-sort and inverse restoration

Modelled from the spec: `sort_all` (`models/common/data.py`) and
`unsort` (`models/common/utils.py`) are not among the sources at hand.
Per the spec, sorting re-orders a batch by descending length and returns
the original-index permutation `orig_idx`; `unsort` applies the inverse
permutation, so that final output order matches the caller-supplied
input order.  Ties in length are broken deterministically (descending
original index, matching a descending lexicographic sort of
(length, index) pairs). -/

def sortAll {α : Type} (xs : List α) (lens : List Nat) : List α × List Nat :=
  let pairs := (lens.zip (List.range xs.length)).zip xs
  let sorted := pairs.mergeSort fun a b =>
    decide (b.1.1 < a.1.1 ∨ (b.1.1 = a.1.1 ∧ b.1.2 ≤ a.1.2))
  (sorted.map fun p => p.2, sorted.map fun p => p.1.2)

def unsortList {α : Type} (ys : List α) (oidx : List Nat) : List α :=
  ((oidx.zip ys).mergeSort fun a b => decide (a.1 ≤ b.1)).map fun p => p.2

/-! ## Theorems -/

/-! ### Claim C7: the lexicon-dropout stub and its mask -/

/-- C7.  During training, when the lexicon-dropout draw triggers, the
code replaces the example by the stub `[SOS, EOS, PAD, ...]` but builds
the mask stump `[0] * 3 + [1] * (width - 3)`: for width 4 the stub holds
`PAD` at position 2 while the mask marks that position as content
(`false` = non-padding), so the mask is NOT consistent with the stub —
it marks the first `PAD` as content, contradicting both the claim and
the documented mask contract (`True` in positions of padding symbols). -/
theorem lexicon_dropout_stub_mask_mismatch :
    lemStump 4 = [SOS_ID, EOS_ID, PAD_ID, PAD_ID] ∧
    lemMaskStump 4 = [false, false, false, true] ∧
    (lemStump 4).getD 2 99 = PAD_ID ∧
    (lemMaskStump 4).getD 2 true = false := by
  refine ⟨rfl, rfl, rfl, rfl⟩

/-! ### Claim C10: one shared attention function in the decoder cell -/

/-- C10.  Inside `LSTMDoubleAttention` the word-form attention and the
lexicon attention are one and the same learned function: the module owns
a single `SoftDotAttention` instance, and on equal arguments (hidden
state, context, mask) the word-form-side computation `h_tilde0` and the
lexicon-side computation `h_tilde1` agree; moreover the fused step
output is literally the single `attention_layer` applied to the two
contexts. -/
theorem double_attention_shared_function (M : LSTMDoubleAttention)
    (input : List ℝ) (hidden : List ℝ × List ℝ) (c : List (List ℝ))
    (m : Option (List Bool)) (srcCtx lexCtx : List (List ℝ))
    (ctxMask lexMask : Option (List Bool)) :
    stepHtilde0 M input hidden c m = stepHtilde1 M input hidden c m ∧
    (doubleAttnStep M input hidden srcCtx lexCtx ctxMask lexMask).1 =
      matVec M.linear
        ((softDotForward M.attention_layer (stepHy M input hidden) srcCtx ctxMask).1 ++
          (softDotForward M.attention_layer (stepHy M input hidden) lexCtx lexMask).1) := by
  exact ⟨rfl, rfl⟩

/-! ### Claim C8: lemma candidates collapse to a sorted deduplicated string -/

theorem firstOccurrences_aux (l : List String) :
    ∀ acc : List String, acc.Nodup →
      (l.foldl (fun acc a => if a ∈ acc then acc else acc ++ [a]) acc).Nodup ∧
      ∀ a, a ∈ l.foldl (fun acc a => if a ∈ acc then acc else acc ++ [a]) acc ↔
        a ∈ acc ∨ a ∈ l := by
  induction l with
  | nil => intro acc hacc; simpa using hacc
  | cons b l ih =>
    intro acc hacc
    by_cases hb : b ∈ acc
    · have h := ih acc hacc
      refine ⟨by simpa [hb] using h.1, ?_⟩
      intro a
      have := h.2 a
      simp only [List.foldl_cons, if_pos hb]
      rw [this]
      constructor
      · rintro (ha | ha)
        · exact Or.inl ha
        · exact Or.inr (List.mem_cons_of_mem _ ha)
      · rintro (ha | ha)
        · exact Or.inl ha
        · rcases List.mem_cons.mp ha with h1 | h1
          · exact Or.inl (h1 ▸ hb)
          · exact Or.inr h1
    · have hacc2 : (acc ++ [b]).Nodup := by
        simp [List.nodup_append, hacc, hb]
      have h := ih (acc ++ [b]) hacc2
      refine ⟨by simpa [hb] using h.1, ?_⟩
      intro a
      have := h.2 a
      simp only [List.foldl_cons, if_neg hb]
      rw [this]
      simp only [List.mem_append, List.mem_singleton, List.mem_cons]
      tauto

theorem firstOccurrences_nodup (l : List String) : (firstOccurrences l).Nodup :=
  (firstOccurrences_aux l [] List.nodup_nil).1

theorem mem_firstOccurrences (l : List String) (a : String) :
    a ∈ firstOccurrences l ↔ a ∈ l := by
  have := (firstOccurrences_aux l [] List.nodup_nil).2 a
  simpa [firstOccurrences] using this

/-- C8.  The lexicon input string `processed_lemma_candidates` is the
concatenation of the distinct candidate lemma strings in sorted order:
the underlying list is sorted, duplicate-free and has exactly the
candidates as members, the string is its concatenation, and any two
candidate tuples with the same set of member strings (whatever their
order or duplication) produce the identical lexicon input string. -/
theorem processed_lemma_candidates_spec (c1 c2 : List String)
    (h : ∀ s, s ∈ c1 ↔ s ∈ c2) :
    List.Sorted (fun a b => a ≤ b) (processedCandidateList c1) ∧
    (processedCandidateList c1).Nodup ∧
    (∀ s, s ∈ processedCandidateList c1 ↔ s ∈ c1) ∧
    processedLemmaCandidates c1 = String.join (processedCandidateList c1) ∧
    processedLemmaCandidates c1 = processedLemmaCandidates c2 := by
  have hsort1 : List.Sorted (fun a b : String => a ≤ b) (processedCandidateList c1) :=
    List.sorted_mergeSort' (firstOccurrences c1)
  have hsort2 : List.Sorted (fun a b : String => a ≤ b) (processedCandidateList c2) :=
    List.sorted_mergeSort' (firstOccurrences c2)
  have hperm1 : (processedCandidateList c1).Perm (firstOccurrences c1) :=
    List.mergeSort_perm _ _
  have hperm2 : (processedCandidateList c2).Perm (firstOccurrences c2) :=
    List.mergeSort_perm _ _
  have hnd1 : (processedCandidateList c1).Nodup :=
    (List.Perm.nodup hperm1.symm) (firstOccurrences_nodup c1)
  have hnd2 : (processedCandidateList c2).Nodup :=
    (List.Perm.nodup hperm2.symm) (firstOccurrences_nodup c2)
  have hmem1 : ∀ s, s ∈ processedCandidateList c1 ↔ s ∈ c1 := by
    intro s
    rw [hperm1.mem_iff, mem_firstOccurrences]
  have hmem2 : ∀ s, s ∈ processedCandidateList c2 ↔ s ∈ c2 := by
    intro s
    rw [hperm2.mem_iff, mem_firstOccurrences]
  have hpp : (processedCandidateList c1).Perm (processedCandidateList c2) := by
    rw [List.perm_ext_iff_of_nodup hnd1 hnd2]
    intro a
    rw [hmem1 a, hmem2 a, h a]
  have heq : processedCandidateList c1 = processedCandidateList c2 :=
    List.eq_of_perm_of_sorted hpp hsort1 hsort2
  exact ⟨hsort1, hnd1, hmem1, rfl, by rw [processedLemmaCandidates, heq]; rfl⟩

/-- Witness for C8 at a concrete pair of candidate tuples with the same
member set. -/
theorem processed_lemma_candidates_spec_witness :
    List.Sorted (fun a b => a ≤ b) (processedCandidateList ["a", "a"]) ∧
    (processedCandidateList ["a", "a"]).Nodup ∧
    ("a" ∈ processedCandidateList ["a", "a"] ↔ "a" ∈ ["a", "a"]) ∧
    processedLemmaCandidates ["a", "a"] = String.join (processedCandidateList ["a", "a"]) ∧
    processedLemmaCandidates ["a", "a"] = processedLemmaCandidates ["a"] := by
  have h := processed_lemma_candidates_spec ["a", "a"] ["a"] (by intro s; simp)
  exact ⟨h.1, h.2.1, h.2.2.1 "a", h.2.2.2.1, h.2.2.2.2⟩

/-! ### Claim C9: postprocess falls back to the word, drops nothing -/

theorem rangeMap_cons {γ : Type} (n : Nat) (g : Nat → γ) :
    (List.range (n + 1)).map g = g 0 :: (List.range n).map (fun i => g (i + 1)) := by
  rw [List.range_succ_eq_map, List.map_cons, List.map_map]
  rfl

theorem fallback_zip_range (edited : List String) :
    ∀ words : List String, edited.length = words.length →
    fallbackLoop edited words = (List.range words.length).map fun i =>
      if (edited.getD i "").length = 0 ∨ containsUNK (edited.getD i "")
      then words.getD i "" else edited.getD i "" := by
  induction edited with
  | nil =>
    intro words h
    have : words = [] := List.eq_nil_of_length_eq_zero h.symm
    subst this
    rfl
  | cons a l ih =>
    intro words h
    cases words with
    | nil => simp at h
    | cons w ws =>
      have hl : l.length = ws.length := by simpa using h
      simp only [List.length_cons]
      rw [rangeMap_cons]
      have hstep : fallbackLoop (a :: l) (w :: ws) =
          (if a.length = 0 ∨ containsUNK a then w else a) :: fallbackLoop l ws := by
        simp [fallbackLoop]
      rw [hstep, ih ws hl]
      simp [List.getD_cons_zero, List.getD_cons_succ]

theorem postprocess_true_eq (ws : List String) :
    ∀ (ps : List String) (es : List Nat), ws.length = ps.length →
    es.length = ws.length → (∀ e ∈ es, e ≤ 2) →
    ∃ E, optionList (List.zipWith3 (fun w p e => edit_word w p e) ws ps es) = some E ∧
      E.length = ws.length ∧
      ∀ i, E.getD i "" = adjustedPred true ws ps es i := by
  induction ws with
  | nil =>
    intro ps es h1 h2 h3
    have hps : ps = [] := List.eq_nil_of_length_eq_zero h1.symm
    have hes : es = [] := List.eq_nil_of_length_eq_zero h2
    subst hps
    subst hes
    refine ⟨[], rfl, rfl, ?_⟩
    intro i
    simp [adjustedPred, edit_word]
  | cons w ws ih =>
    intro ps es h1 h2 h3
    cases ps with
    | nil => simp at h1
    | cons p ps =>
      cases es with
      | nil => simp at h2
      | cons e es =>
        have he : e ≤ 2 := h3 e (List.mem_cons_self e es)
        have ha : ∃ a, edit_word w p e = some a := by
          have : e = 0 ∨ e = 1 ∨ e = 2 := by omega
          rcases this with h | h | h <;> subst h <;> simp [edit_word]
        obtain ⟨a, ha⟩ := ha
        obtain ⟨E, hE, hElen, hEget⟩ := ih ps es (by simpa using h1)
          (by simpa using h2) (fun x hx => h3 x (List.mem_cons_of_mem _ hx))
        refine ⟨a :: E, ?_, by simpa using hElen, ?_⟩
        · simp only [List.zipWith3, optionList, ha, hE]
        · intro i
          cases i with
          | zero => simp [adjustedPred, List.getD_cons_zero, ha]
          | succ n =>
            simp only [List.getD_cons_succ, hEget n, adjustedPred, if_pos]

/-- C9.  For equal-length word and prediction lists (with well-formed
edit classes when the edit classifier is enabled), `postprocess` returns
a list of exactly the input length whose `i`-th element is the original
word precisely when the (possibly edit-adjusted) prediction at `i` is
empty or contains the `<UNK>` placeholder, and is that prediction
otherwise: nothing is dropped or reordered. -/
theorem postprocess_spec (editFlag : Bool) (words preds : List String)
    (edits : List Nat) (hlen : words.length = preds.length)
    (hedit : editFlag = true → edits.length = words.length ∧ ∀ e ∈ edits, e ≤ 2) :
    postprocess editFlag words preds edits =
      some ((List.range words.length).map fun i =>
        if (adjustedPred editFlag words preds edits i).length = 0 ∨
            containsUNK (adjustedPred editFlag words preds edits i)
        then words.getD i "" else adjustedPred editFlag words preds edits i) := by
  cases editFlag with
  | false =>
    have hfb := fallback_zip_range preds words hlen.symm
    simp only [postprocess, if_pos hlen, cond_false, Option.map_some']
    rw [hfb]
    congr 1
  | true =>
    obtain ⟨h2, h3⟩ := hedit rfl
    obtain ⟨E, hE, hElen, hEget⟩ := postprocess_true_eq words preds edits hlen h2 h3
    have hfb := fallback_zip_range E words (by rw [hElen])
    simp only [postprocess, if_pos hlen, cond_true, if_pos h2.symm, hE, Option.map_some']
    rw [hfb]
    congr 1
    apply List.map_congr_left
    intro i _
    rw [hEget i]

/-- Witness for C9: a concrete run without the edit classifier, with an
empty prediction and an `<UNK>`-containing prediction both falling back
to the original words. -/
theorem postprocess_spec_witness :
    postprocess false ["w", "x", "y"] ["ok", "", "a<UNK>b"] [] =
      some ["ok", "x", "y"] := by
  have h := postprocess_spec false ["w", "x", "y"] ["ok", "", "a<UNK>b"] []
    rfl (by simp)
  rw [h]
  decide

/-! ### Claim C4: vocabulary round trip and unknown handling -/

theorem lastIdxOfFrom_some (l : List String) :
    ∀ (w : String) (i j : Nat), lastIdxOfFrom l w i = some j →
      i ≤ j ∧ j - i < l.length ∧ l.getD (j - i) "" = w := by
  induction l with
  | nil => intro w i j h; simp [lastIdxOfFrom] at h
  | cons a rest ih =>
    intro w i j h
    cases hrec : lastIdxOfFrom rest w (i + 1) with
    | some j2 =>
      rw [lastIdxOfFrom, hrec] at h
      injection h with hj
      subst hj
      obtain ⟨h1, h2, h3⟩ := ih w (i + 1) j2 hrec
      have hd : j2 - i = (j2 - (i + 1)) + 1 := by omega
      refine ⟨by omega, by simp only [List.length_cons]; omega, ?_⟩
      rw [hd, List.getD_cons_succ]
      exact h3
    | none =>
      rw [lastIdxOfFrom, hrec] at h
      by_cases haw : a = w
      · rw [if_pos haw] at h
        cases h
        simp only [Nat.sub_self, List.getD_cons_zero, List.length_cons]
        exact ⟨Nat.le_refl i, Nat.succ_pos _, haw⟩
      · rw [if_neg haw] at h
        cases h

theorem lastIdxOfFrom_isSome (l : List String) :
    ∀ (w : String) (i : Nat), w ∈ l → (lastIdxOfFrom l w i).isSome := by
  induction l with
  | nil => intro w i h; simp at h
  | cons a rest ih =>
    intro w i h
    cases hrec : lastIdxOfFrom rest w (i + 1) with
    | some j => simp [lastIdxOfFrom, hrec]
    | none =>
      rcases List.mem_cons.mp h with h1 | h1
      · rw [lastIdxOfFrom, hrec, if_pos h1.symm]
        rfl
      · have := ih w (i + 1) h1
        rw [hrec] at this
        simp at this

theorem lastIdxOf_mem (l : List String) (w : String) (h : w ∈ l) :
    ∃ j, lastIdxOf l w = some j ∧ j < l.length ∧ l.getD j "" = w := by
  have hs := lastIdxOfFrom_isSome l w 0 h
  cases heq : lastIdxOfFrom l w 0 with
  | none => rw [heq] at hs; simp at hs
  | some j =>
    obtain ⟨_, h2, h3⟩ := lastIdxOfFrom_some l w 0 j heq
    exact ⟨j, heq, by simpa using h2, by simpa using h3⟩

theorem lastIdxOf_not_mem (l : List String) (w : String) (h : w ∉ l) :
    lastIdxOf l w = none := by
  cases heq : lastIdxOfFrom l w 0 with
  | none => exact heq
  | some j =>
    obtain ⟨_, h2, h3⟩ := lastIdxOfFrom_some l w 0 j heq
    rw [Nat.sub_zero] at h2 h3
    rw [List.getD_eq_getElem l "" h2] at h3
    exact absurd (h3 ▸ List.getElem_mem h2) h

/-- C4.  For a vocabulary built by `build_vocab`, `unmap` after `map` is
the identity on sequences of in-vocabulary symbols; `map` sends an
out-of-vocabulary symbol occurring at any position to the reserved
unknown id `1`, and `unmap` of that id returns the unknown placeholder
`<UNK>` — which is not the original symbol. -/
theorem vocab_map_unmap (data s : List String) (u : String)
    (s1 s2 : List String)
    (hs : ∀ x ∈ s, x ∈ (buildVocab data).id2unit)
    (hu : u ∉ (buildVocab data).id2unit) :
    vunmap (buildVocab data) (vmap (buildVocab data) s) = s ∧
    vmap (buildVocab data) (s1 ++ u :: s2) =
      vmap (buildVocab data) s1 ++ UNK_ID :: vmap (buildVocab data) s2 ∧
    vmap (buildVocab data) [u] = [UNK_ID] ∧
    vunmap (buildVocab data) [UNK_ID] = [UNK] ∧
    UNK ≠ u := by
  have hmapu : (match lastIdxOf (buildVocab data).id2unit u with
      | some i => i
      | none => UNK_ID) = UNK_ID := by
    rw [lastIdxOf_not_mem _ _ hu]
  refine ⟨?_, ?_, ?_, ?_, ?_⟩
  · rw [vunmap, vmap, List.map_map]
    have hid : ∀ x ∈ s,
        ((fun i => (buildVocab data).id2unit.getD i "") ∘ fun y =>
          (match lastIdxOf (buildVocab data).id2unit y with
            | some i => i
            | none => UNK_ID)) x = id x := by
      intro x hx
      obtain ⟨j, hj, _, hjg⟩ := lastIdxOf_mem _ x (hs x hx)
      simp only [Function.comp_apply, hj, id_eq]
      exact hjg
    rw [List.map_congr_left hid, List.map_id]
  · simp only [vmap, List.map_append, List.map_cons, hmapu]
  · simp only [vmap, List.map_cons, List.map_nil, hmapu]
  · have h5 : (1 : Nat) < VOCAB_RESERVED.length := by
      simp [VOCAB_RESERVED]
    show [((VOCAB_RESERVED ++ _).getD 1 "")] = [UNK]
    rw [List.getD_append _ _ _ 1 h5]
    rfl
  · intro h
    apply hu
    rw [← h]
    exact List.mem_append.mpr (Or.inl (by simp [VOCAB_RESERVED]))

/- Witness for C4 on the vocabulary built from empty data (the five
reserved symbols): round trip on `[EOS]`, unknown symbol `"z"`. -/
unseal List.merge List.mergeSort in
theorem vocab_map_unmap_witness :
    vunmap (buildVocab []) (vmap (buildVocab []) [EOS]) = [EOS] ∧
    vmap (buildVocab []) ([] ++ "z" :: []) =
      vmap (buildVocab []) [] ++ UNK_ID :: vmap (buildVocab []) [] ∧
    vmap (buildVocab []) ["z"] = [UNK_ID] ∧
    vunmap (buildVocab []) [UNK_ID] = [UNK] ∧
    UNK ≠ "z" := by
  have hv : (buildVocab []).id2unit = VOCAB_RESERVED := rfl
  refine vocab_map_unmap [] [EOS] "z" [] [] ?_ ?_
  · intro x hx
    rw [hv]
    have : x = EOS := by simpa using hx
    subst this
    decide
  · rw [hv]
    decide

/-! ### Claim C1: masked attention weights -/

theorem list_sum_div (l : List ℝ) (z : ℝ) :
    (l.map fun x => x / z).sum = l.sum / z := by
  induction l with
  | nil => simp
  | cons a rest ih => simp [ih, add_div]

theorem sum_exp_pos (l : List ℝ) (h : l ≠ []) :
    0 < (l.map Real.exp).sum := by
  cases l with
  | nil => exact absurd rfl h
  | cons a rest =>
    have h1 : (0 : ℝ) ≤ (rest.map Real.exp).sum :=
      List.sum_nonneg (by
        intro x hx
        obtain ⟨y, _, rfl⟩ := List.mem_map.mp hx
        exact (Real.exp_pos y).le)
    calc (0 : ℝ) < Real.exp a := Real.exp_pos a
    _ ≤ Real.exp a + (rest.map Real.exp).sum := by linarith
    _ = ((a :: rest).map Real.exp).sum := by simp

theorem getD_map_real (f : ℝ → ℝ) (l : List ℝ) (i : Nat) (h : i < l.length)
    (d dg : ℝ) : (l.map f).getD i d = f (l.getD i dg) := by
  rw [List.getD_eq_getElem _ _ (by simpa using h), List.getD_eq_getElem _ _ h]
  exact List.getElem_map f

theorem getD_masked (scores : List ℝ) (mask : List Bool) (i : Nat)
    (hs : i < scores.length) (hm : i < mask.length) (d : ℝ) :
    (maskedScores scores mask).getD i d =
      if mask.getD i false then -INFINITY_NUMBER else scores.getD i 0 := by
  have hlen : i < (maskedScores scores mask).length := by
    simp [maskedScores, List.length_zipWith]
    omega
  rw [List.getD_eq_getElem _ _ hlen, List.getD_eq_getElem _ _ hm,
    List.getD_eq_getElem _ _ hs]
  exact List.getElem_zipWith

theorem getD_mem_real (l : List ℝ) (i : Nat) (d : ℝ) (h : i < l.length) :
    l.getD i d ∈ l := by
  rw [List.getD_eq_getElem _ _ h]
  exact List.getElem_mem h

/-- C1 (amended).  In exact arithmetic, the attention weights over a
sentinel-masked score vector always sum exactly to 1, and — whenever at
least one position is unmasked — each padding position carries a
strictly positive (so not exactly zero) weight that is bounded above by
`exp (-1e12 - s_j)` for the raw score `s_j` of any unmasked position
`j`: zero only up to floating-point underflow, not exactly. -/
theorem attn_weights_amended (scores : List ℝ) (mask : List Bool)
    (hlen : scores.length = mask.length) (j : Nat) (hj : j < mask.length)
    (hfalse : mask.getD j true = false) (i : Nat) (hi : i < mask.length)
    (htrue : mask.getD i false = true) :
    (attnWeights scores mask).sum = 1 ∧
    0 < (attnWeights scores mask).getD i 0 ∧
    (attnWeights scores mask).getD i 0 ≤
      Real.exp (-INFINITY_NUMBER - scores.getD j 0) := by
  have hms_len : (maskedScores scores mask).length = mask.length := by
    simp [maskedScores, List.length_zipWith, hlen]
  have hne : maskedScores scores mask ≠ [] := by
    intro hcon
    rw [hcon] at hms_len
    simp at hms_len
    omega
  have hZpos : 0 < ((maskedScores scores mask).map Real.exp).sum :=
    sum_exp_pos _ hne
  have hZne : ((maskedScores scores mask).map Real.exp).sum ≠ 0 := ne_of_gt hZpos
  have hsum : (attnWeights scores mask).sum = 1 := by
    rw [attnWeights, softmaxList]
    have hcomp : ((maskedScores scores mask).map fun x =>
        Real.exp x / ((maskedScores scores mask).map Real.exp).sum) =
        (((maskedScores scores mask).map Real.exp).map fun y =>
          y / ((maskedScores scores mask).map Real.exp).sum) := by
      rw [List.map_map]
      rfl
    rw [hcomp, list_sum_div, div_self hZne]
  have hii : i < (maskedScores scores mask).length := by omega
  have hwi : (attnWeights scores mask).getD i 0 =
      Real.exp (-INFINITY_NUMBER) / ((maskedScores scores mask).map Real.exp).sum := by
    rw [attnWeights, softmaxList,
      getD_map_real _ _ i hii 0 0,
      getD_masked scores mask i (by omega) hi 0, if_pos htrue]
  have hjj : j < (maskedScores scores mask).length := by omega
  have hZge : Real.exp (scores.getD j 0) ≤ ((maskedScores scores mask).map Real.exp).sum := by
    apply List.single_le_sum
    · intro x hx
      obtain ⟨y, _, rfl⟩ := List.mem_map.mp hx
      exact (Real.exp_pos y).le
    · have hmj : (maskedScores scores mask).getD j 0 = scores.getD j 0 := by
        rw [getD_masked scores mask j (by omega) hj 0]
        have hf2 : mask.getD j false = false := by
          rw [List.getD_eq_getElem _ _ hj]
          rw [List.getD_eq_getElem _ _ hj] at hfalse
          exact hfalse
        rw [if_neg (by rw [hf2]; exact Bool.false_ne_true)]
      have := getD_mem_real (maskedScores scores mask) j 0 hjj
      rw [hmj] at this
      exact List.mem_map.mpr ⟨_, this, rfl⟩
  refine ⟨hsum, ?_, ?_⟩
  · rw [hwi]
    exact div_pos (Real.exp_pos _) hZpos
  · rw [hwi, Real.exp_sub]
    exact div_le_div_of_nonneg_left (Real.exp_pos _).le
      (Real.exp_pos _) hZge

/-- Counterexample to C1 as stated: with an all-padding mask (which the
claim quantifies over), `SoftDotAttention.forward` gives every padding
position the weight `1/2`, not `0` — the finite `-1e12` sentinel only
makes masked weights small, never exactly zero in exact arithmetic. -/
theorem attn_padding_weight_counterexample :
    (softDotForward ⟨[[1]], [[1], [1]]⟩ [0] [[0], [0]]
        (some [true, true])).2.getD 0 0 = 1 / 2 ∧
    ¬ (softDotForward ⟨[[1]], [[1], [1]]⟩ [0] [[0], [0]]
        (some [true, true])).2.getD 0 0 = 0 := by
  have hx : (softDotForward ⟨[[1]], [[1], [1]]⟩ [0] [[0], [0]]
      (some [true, true])).2.getD 0 0 =
      Real.exp (-INFINITY_NUMBER) /
        (Real.exp (-INFINITY_NUMBER) + (Real.exp (-INFINITY_NUMBER) + 0)) := by
    simp [softDotForward, attnScores, matVec, dotR, attnWeights,
      maskedScores, softmaxList]
  have h2 : Real.exp (-INFINITY_NUMBER) /
      (Real.exp (-INFINITY_NUMBER) + (Real.exp (-INFINITY_NUMBER) + 0)) = 1 / 2 := by
    rw [add_zero, div_eq_iff (by positivity)]
    ring
  rw [hx, h2]
  norm_num

/- Witness for C1 (amended) at the concrete score vector `[0, 0]` with
mask `[padding, content]`. -/
theorem attn_weights_amended_witness :
    (attnWeights [0, 0] [true, false]).sum = 1 ∧
    0 < (attnWeights [0, 0] [true, false]).getD 0 0 ∧
    (attnWeights [0, 0] [true, false]).getD 0 0 ≤
      Real.exp (-INFINITY_NUMBER - ([(0 : ℝ), 0].getD 1 0)) :=
  attn_weights_amended [0, 0] [true, false] rfl 1 (by decide) rfl 0
    (by decide) rfl

/-! ### Claims C2 and C6: the greedy decoding loop -/

theorem stepAll_mem_bound (d : List Bool) :
    ∀ (t : List Nat) (o : List (List Nat)),
      ∀ x ∈ (stepAll d t o).2.1, ∃ y ∈ o, x.length ≤ y.length + 1 := by
  induction d with
  | nil => intro t o x hx; simp [stepAll] at hx
  | cons b ds ih =>
    intro t o x hx
    cases t with
    | nil => simp [stepAll] at hx
    | cons t ts =>
      cases o with
      | nil => simp [stepAll] at hx
      | cons a os =>
        by_cases hb : b
        · subst hb
          simp only [stepAll, if_pos rfl] at hx
          rcases List.mem_cons.mp hx with rfl | hx2
          · exact ⟨x, List.mem_cons_self x os, by omega⟩
          · obtain ⟨y, hy, hyl⟩ := ih ts os x hx2
            exact ⟨y, List.mem_cons_of_mem _ hy, hyl⟩
        · have hb2 : b = false := by simpa using hb
          subst hb2
          by_cases ht : t = EOS_ID
          · simp only [stepAll, Bool.false_eq_true, if_false, if_pos ht] at hx
            rcases List.mem_cons.mp hx with rfl | hx2
            · exact ⟨x, List.mem_cons_self x os, by omega⟩
            · obtain ⟨y, hy, hyl⟩ := ih ts os x hx2
              exact ⟨y, List.mem_cons_of_mem _ hy, hyl⟩
          · simp only [stepAll, Bool.false_eq_true, if_false, if_neg ht] at hx
            rcases List.mem_cons.mp hx with rfl | hx2
            · refine ⟨a, List.mem_cons_self a os, ?_⟩
              simp
            · obtain ⟨y, hy, hyl⟩ := ih ts os x hx2
              exact ⟨y, List.mem_cons_of_mem _ hy, hyl⟩

theorem greedyLoop_bound {σ : Type} (f : σ → σ × List Nat) (bs L : Nat)
    (g : GreedyState σ) (hml : g.maxLen ≤ L)
    (hout : ∀ y ∈ g.outputs, y.length ≤ g.maxLen) :
    (greedyLoop f bs L g).maxLen ≤ L ∧
    ∀ y ∈ (greedyLoop f bs L g).outputs,
      y.length ≤ (greedyLoop f bs L g).maxLen := by
  induction g using greedyLoop.induct f bs L with
  | case1 g h fr r ih =>
    rw [greedyLoop, dif_pos h]
    refine ih h.2 ?_
    intro y hy
    obtain ⟨z, hz, hzl⟩ := stepAll_mem_bound g.done (f g.st).2 g.outputs y hy
    have := hout z hz
    show y.length ≤ g.maxLen + 1
    omega
  | case2 g h =>
    rw [greedyLoop, dif_neg h]
    exact ⟨hml, hout⟩

/-- C2.  For every batch and decode-step oracle, `Seq2SeqModel.predict`
terminates after at most `max_dec_len` decoder steps (the final step
counter never exceeds the cap) and every returned symbol sequence has
length at most `max_dec_len`. -/
theorem greedy_predict_bounded {σ : Type} (f : σ → σ × List Nat)
    (batchSize maxDecLen : Nat) (s0 : σ) :
    (greedyLoop f batchSize maxDecLen
      ⟨s0, List.replicate batchSize false, 0, 0,
        List.replicate batchSize []⟩).maxLen ≤ maxDecLen ∧
    (greedyPredict f batchSize maxDecLen s0).all
      (fun out => decide (out.length ≤ maxDecLen)) = true := by
  have h := greedyLoop_bound f batchSize maxDecLen
    ⟨s0, List.replicate batchSize false, 0, 0, List.replicate batchSize []⟩
    (Nat.zero_le _)
    (by
      intro y hy
      have : y = [] := List.eq_of_mem_replicate hy
      subst this
      simp)
  refine ⟨h.1, ?_⟩
  rw [List.all_eq_true]
  intro x hx
  have h2 := h.2 x hx
  have h3 : x.length ≤ maxDecLen := le_trans h2 h.1
  simpa using h3

theorem stepAll_getD (d : List Bool) :
    ∀ (t : List Nat) (o : List (List Nat)) (i : Nat),
      d.length = t.length → d.length = o.length → i < d.length →
      (stepAll d t o).1.getD i false =
        (d.getD i false || decide (t.getD i 0 = EOS_ID)) ∧
      (stepAll d t o).2.1.getD i [] =
        (if d.getD i false then o.getD i []
         else if t.getD i 0 = EOS_ID then o.getD i []
         else o.getD i [] ++ [t.getD i 0]) ∧
      (stepAll d t o).1.length = d.length ∧
      (stepAll d t o).2.1.length = d.length := by
  induction d with
  | nil => intro t o i _ _ hi; simp at hi
  | cons b ds ih =>
    intro t o i h1 h2 hi
    cases t with
    | nil => simp at h1
    | cons t ts =>
      cases o with
      | nil => simp at h2
      | cons a os =>
        have h1a : ds.length = ts.length := by simpa using h1
        have h2a : ds.length = os.length := by simpa using h2
        have hlen := fun (k : Nat) (hk : k < ds.length) =>
          ih ts os k h1a h2a hk
        have hlens : (stepAll ds ts os).1.length = ds.length ∧
            (stepAll ds ts os).2.1.length = ds.length := by
          cases ds with
          | nil =>
            have hts : ts = [] := by
              cases ts with
              | nil => rfl
              | cons u us => simp at h1a
            have hos : os = [] := by
              cases os with
              | nil => rfl
              | cons u us => simp at h2a
            subst hts
            subst hos
            simp [stepAll]
          | cons b2 ds2 =>
            exact ⟨(hlen 0 (by simp)).2.2.1, (hlen 0 (by simp)).2.2.2⟩
        have hstep : stepAll (b :: ds) (t :: ts) (a :: os) =
            (if b then (true :: (stepAll ds ts os).1,
                a :: (stepAll ds ts os).2.1, (stepAll ds ts os).2.2)
             else if t = EOS_ID then (true :: (stepAll ds ts os).1,
                a :: (stepAll ds ts os).2.1, (stepAll ds ts os).2.2 + 1)
             else (false :: (stepAll ds ts os).1,
                (a ++ [t]) :: (stepAll ds ts os).2.1,
                (stepAll ds ts os).2.2)) := rfl
        cases i with
        | zero =>
          rw [hstep]
          by_cases hb : b
          · subst hb
            simp [hlens.1, hlens.2]
          · have hb2 : b = false := by simpa using hb
            subst hb2
            by_cases ht : t = EOS_ID
            · simp [ht, hlens.1, hlens.2]
            · simp [ht, hlens.1, hlens.2]
        | succ n =>
          have hn : n < ds.length := by simpa using hi
          obtain ⟨e1, e2, e3, e4⟩ := ih ts os n h1a h2a hn
          rw [hstep]
          by_cases hb : b
          · subst hb
            simp [List.getD_cons_succ, e3, e4]
            exact ⟨by simpa using e1, by simpa using e2⟩
          · have hb2 : b = false := by simpa using hb
            subst hb2
            by_cases ht : t = EOS_ID
            · simp [ht, List.getD_cons_succ, e3, e4]
              exact ⟨by simpa using e1, by simpa using e2⟩
            · simp [ht, List.getD_cons_succ, e3, e4]
              exact ⟨by simpa using e1, by simpa using e2⟩

theorem greedyLoop_frozen {σ : Type} (f : σ → σ × List Nat) (bs L : Nat)
    (i : Nat) (hf : ∀ s, ((f s).2).length = bs) (g : GreedyState σ)
    (hgd : g.done.length = bs) (hgo : g.outputs.length = bs) (hi : i < bs)
    (hdone : g.done.getD i false = true) :
    (greedyLoop f bs L g).outputs.getD i [] = g.outputs.getD i [] := by
  induction g using greedyLoop.induct f bs L with
  | case1 g h fr r ih =>
    rw [greedyLoop, dif_pos h]
    have hpl : ((f g.st).2).length = bs := hf g.st
    obtain ⟨s1, s2, s3, s4⟩ := stepAll_getD g.done (f g.st).2 g.outputs i
      (by omega) (by omega) (by omega)
    have hnd : (stepAll g.done (f g.st).2 g.outputs).1.getD i false = true := by
      rw [s1, hdone]
      simp
    have hno : (stepAll g.done (f g.st).2 g.outputs).2.1.getD i [] =
        g.outputs.getD i [] := by
      rw [s2, if_pos hdone]
    have hrec := ih (by rw [s3]; exact hgd) (by rw [s4]; exact hgd) hnd
    exact hrec.trans hno
  | case2 g h =>
    rw [greedyLoop, dif_neg h]

theorem greedyLoop_eos_free {σ : Type} (f : σ → σ × List Nat) (bs L : Nat)
    (i : Nat) (hf : ∀ s, ((f s).2).length = bs) (g : GreedyState σ)
    (hgd : g.done.length = bs) (hgo : g.outputs.length = bs) (hi : i < bs)
    (hcount : (g.outputs.getD i []).count EOS_ID = 0) :
    ((greedyLoop f bs L g).outputs.getD i []).count EOS_ID = 0 := by
  induction g using greedyLoop.induct f bs L with
  | case1 g h fr r ih =>
    rw [greedyLoop, dif_pos h]
    have hpl : ((f g.st).2).length = bs := hf g.st
    obtain ⟨s1, s2, s3, s4⟩ := stepAll_getD g.done (f g.st).2 g.outputs i
      (by omega) (by omega) (by omega)
    apply ih (by rw [s3]; exact hgd) (by rw [s4]; exact hgd)
    rw [s2]
    by_cases h1 : g.done.getD i false
    · rw [if_pos h1]
      exact hcount
    · rw [if_neg h1]
      by_cases h2 : (f g.st).2.getD i 0 = EOS_ID
      · rw [if_pos h2]
        exact hcount
      · rw [if_neg h2]
        rw [List.count_append]
        have hone : List.count EOS_ID [(f g.st).2.getD i 0] = 0 := by
          rw [List.count_eq_zero]
          intro hm
          exact h2 (List.mem_singleton.mp hm).symm
        omega
  | case2 g h =>
    rw [greedyLoop, dif_neg h]
    exact hcount

theorem getD_replicate_nilList (n i : Nat) :
    (List.replicate n ([] : List Nat)).getD i [] = [] := by
  by_cases h : i < n
  · rw [List.getD_eq_getElem _ _ (by simpa using h)]
    exact List.getElem_replicate _ _
  · exact List.getD_eq_default _ _ (by simpa using Nat.le_of_not_lt h)

/-- C6.  In the greedy decoding loop, at every step and for every live
example `i`: if the arg-max symbol equals the stop id the example is
marked done and its accumulator is left unchanged (and, once done, the
accumulator is frozen for the entire rest of the loop); otherwise the
symbol is appended; consequently the stop symbol never occurs in any
returned output sequence. -/
theorem greedy_stop_semantics {σ : Type} (f : σ → σ × List Nat)
    (bs L : Nat) (s0 : σ) (g : GreedyState σ) (i : Nat)
    (d : List Bool) (t : List Nat) (o : List (List Nat))
    (hd : d.length = t.length) (ho : d.length = o.length) (hi : i < d.length)
    (hf : ∀ s, ((f s).2).length = bs)
    (hgd : g.done.length = bs) (hgo : g.outputs.length = bs) (hgi : i < bs)
    (hdone : g.done.getD i false = true) :
    (stepAll d t o).1.getD i false =
      (d.getD i false || decide (t.getD i 0 = EOS_ID)) ∧
    ((stepAll d t o).2.1.getD i [] =
      if d.getD i false then o.getD i []
      else if t.getD i 0 = EOS_ID then o.getD i []
      else o.getD i [] ++ [t.getD i 0]) ∧
    (greedyLoop f bs L g).outputs.getD i [] = g.outputs.getD i [] ∧
    ((greedyPredict f bs L s0).getD i []).count EOS_ID = 0 := by
  obtain ⟨s1, s2, _, _⟩ := stepAll_getD d t o i hd ho hi
  refine ⟨s1, s2, greedyLoop_frozen f bs L i hf g hgd hgo hgi hdone, ?_⟩
  show ((greedyLoop f bs L ⟨s0, List.replicate bs false, 0, 0,
      List.replicate bs []⟩).outputs.getD i []).count EOS_ID = 0
  apply greedyLoop_eos_free f bs L i hf _ (by simp) (by simp) hgi
  rw [getD_replicate_nilList]
  rfl

/- Witness for C6 at a concrete oracle, batch of one, a non-stop
arg-max symbol `7`, and a state already marked done. -/
theorem greedy_stop_semantics_witness :
    (stepAll [false] [7] [[9]]).1.getD 0 false =
      ([false].getD 0 false || decide ([7].getD 0 0 = EOS_ID)) ∧
    ((stepAll [false] [7] [[9]]).2.1.getD 0 [] =
      if [false].getD 0 false then [[9]].getD 0 []
      else if [7].getD 0 0 = EOS_ID then [[9]].getD 0 []
      else [[9]].getD 0 [] ++ [[7].getD 0 0]) ∧
    (greedyLoop (fun _ => ((), [7])) 1 1
      (⟨(), [true], 1, 0, [[5]]⟩ : GreedyState Unit)).outputs.getD 0 [] =
      (⟨(), [true], 1, 0, [[5]]⟩ : GreedyState Unit).outputs.getD 0 [] ∧
    ((greedyPredict (fun _ => ((), [7])) 1 1 ()).getD 0 []).count EOS_ID = 0 :=
  greedy_stop_semantics (fun _ => ((), [7])) 1 1 ()
    ⟨(), [true], 1, 0, [[5]]⟩ 0 [false] [7] [[9]] rfl rfl (by decide)
    (fun _ => rfl) rfl rfl (by decide) rfl

/-! ### Claim C5: inverse-permutation restoration after length-sort -/

theorem zip3_proj {α : Type} (l1 : List Nat) :
    ∀ (l2 : List Nat) (l3 : List α), l1.length = l2.length →
      l2.length = l3.length →
      ((l1.zip l2).zip l3).map (fun p => (p.1.2, p.2)) = l2.zip l3 := by
  induction l1 with
  | nil =>
    intro l2 l3 h1 h2
    have : l2 = [] := List.eq_nil_of_length_eq_zero h1.symm
    subst this
    simp
  | cons a t1 ih =>
    intro l2 l3 h1 h2
    cases l2 with
    | nil => simp at h1
    | cons b t2 =>
      cases l3 with
      | nil => simp at h2
      | cons c t3 =>
        simp only [List.zip_cons_cons, List.map_cons]
        rw [ih t2 t3 (by simpa using h1) (by simpa using h2)]

/-- C5.  Restoring with the original-index permutation after the
descending-length sort recovers the batch in the caller-supplied order:
`unsort (sort x) = x`, for every assignment of lengths (all equal, all
distinct, or anything in between). -/
theorem sortAll_unsort {α : Type} (xs : List α) (lens : List Nat)
    (hlen : lens.length = xs.length) :
    unsortList (sortAll xs lens).1 (sortAll xs lens).2 = xs := by
  have hperm : ((((lens.zip (List.range xs.length)).zip xs).mergeSort
      (fun a b => decide (b.1.1 < a.1.1 ∨ (b.1.1 = a.1.1 ∧ b.1.2 ≤ a.1.2)))).Perm
      ((lens.zip (List.range xs.length)).zip xs)) := List.mergeSort_perm _ _
  have hzip : ((sortAll xs lens).2.zip (sortAll xs lens).1) =
      (((lens.zip (List.range xs.length)).zip xs).mergeSort
        (fun a b => decide (b.1.1 < a.1.1 ∨ (b.1.1 = a.1.1 ∧ b.1.2 ≤ a.1.2)))).map
        (fun p => (p.1.2, p.2)) := by
    show ((((lens.zip (List.range xs.length)).zip xs).mergeSort _).map fun p => p.1.2).zip
        ((((lens.zip (List.range xs.length)).zip xs).mergeSort _).map fun p => p.2) = _
    rw [List.zip_map']
  have htarget : ((((lens.zip (List.range xs.length)).zip xs).mergeSort
      (fun a b => decide (b.1.1 < a.1.1 ∨ (b.1.1 = a.1.1 ∧ b.1.2 ≤ a.1.2)))).map
      (fun p => (p.1.2, p.2))).Perm ((List.range xs.length).zip xs) := by
    have h1 := hperm.map (fun p => (p.1.2, p.2))
    rw [zip3_proj lens (List.range xs.length) xs
      (by simpa using hlen) (by simp)] at h1
    exact h1
  have hqperm : ((((sortAll xs lens).2.zip (sortAll xs lens).1).mergeSort
      (fun a b => decide (a.1 ≤ b.1))).Perm ((List.range xs.length).zip xs)) :=
    (List.mergeSort_perm _ _).trans (by rw [hzip]; exact htarget)
  have hndfst : ((((sortAll xs lens).2.zip (sortAll xs lens).1).mergeSort
      (fun a b => decide (a.1 ≤ b.1))).map Prod.fst).Perm (List.range xs.length) := by
    have h2 := hqperm.map Prod.fst
    rw [List.map_fst_zip _ _ (by simp)] at h2
    exact h2
  have hnodup : ((((sortAll xs lens).2.zip (sortAll xs lens).1).mergeSort
      (fun a b => decide (a.1 ≤ b.1))).map Prod.fst).Nodup :=
    List.Perm.nodup hndfst.symm (List.nodup_range _)
  have hsorted_le : List.Pairwise
      (fun a b : Nat × α => (fun a b : Nat × α => decide (a.1 ≤ b.1)) a b = true)
      (((sortAll xs lens).2.zip (sortAll xs lens).1).mergeSort
        (fun a b => decide (a.1 ≤ b.1))) := by
    apply List.sorted_mergeSort
    · intro a b c h1 h2
      simp only [decide_eq_true_eq] at h1 h2 ⊢
      omega
    · intro a b
      simp only [Bool.or_eq_true, decide_eq_true_eq]
      omega
  have hne : List.Pairwise (fun a b : Nat × α => a.1 ≠ b.1)
      (((sortAll xs lens).2.zip (sortAll xs lens).1).mergeSort
        (fun a b => decide (a.1 ≤ b.1))) :=
    List.pairwise_map.mp hnodup
  have hlt : List.Pairwise (fun a b : Nat × α => a.1 < b.1)
      (((sortAll xs lens).2.zip (sortAll xs lens).1).mergeSort
        (fun a b => decide (a.1 ≤ b.1))) := by
    refine (hsorted_le.and hne).imp ?_
    intro a b h
    have h1 : a.1 ≤ b.1 := by simpa using h.1
    exact lt_of_le_of_ne h1 h.2
  have hlt2 : List.Pairwise (fun a b : Nat × α => a.1 < b.1)
      ((List.range xs.length).zip xs) := by
    apply List.pairwise_map.mp
    rw [List.map_fst_zip _ _ (by simp)]
    exact List.pairwise_lt_range _
  have heq : (((sortAll xs lens).2.zip (sortAll xs lens).1).mergeSort
      (fun a b => decide (a.1 ≤ b.1))) = (List.range xs.length).zip xs := by
    haveI : IsAntisymm (Nat × α) (fun a b => a.1 < b.1) :=
      ⟨fun a b h1 h2 => absurd h2 (by omega)⟩
    exact List.eq_of_perm_of_sorted hqperm hlt hlt2
  show ((((sortAll xs lens).2.zip (sortAll xs lens).1).mergeSort
      (fun a b => decide (a.1 ≤ b.1))).map fun p => p.2) = xs
  rw [heq, List.map_snd_zip _ _ (by simp)]

/- Witness for C5 at a concrete batch of two with distinct lengths. -/
theorem sortAll_unsort_witness :
    unsortList (sortAll [10, 20] [5, 7]).1 (sortAll [10, 20] [5, 7]).2 =
      [10, 20] :=
  sortAll_unsort [10, 20] [5, 7] rfl

/-! ### Claim C3: beam search with width 1 equals greedy decoding -/

/-- First-maximum characterization: `v` is the position of the first
maximal entry of `lp`. -/
def isFirstMax (lp : List ℝ) (v : Nat) : Prop :=
  v < lp.length ∧ (∀ k < lp.length, lp.getD k 0 ≤ lp.getD v 0) ∧
    ∀ k < v, lp.getD k 0 < lp.getD v 0

theorem argmaxAux_isFirstMax (xs : List ℝ) :
    ∀ (full : List ℝ) (i : Nat) (bv : ℝ) (bi : Nat),
      full.length = i + xs.length →
      (∀ k, k < xs.length → full.getD (i + k) 0 = xs.getD k 0) →
      bi < i → full.getD bi 0 = bv →
      (∀ k < i, full.getD k 0 ≤ bv) →
      (∀ k < bi, full.getD k 0 < bv) →
      isFirstMax full (argmaxAux xs i bv bi) := by
  induction xs with
  | nil =>
    intro full i bv bi hlen hsuff hbi hbv hle hlt
    simp only [List.length_nil, Nat.add_zero] at hlen
    rw [argmaxAux]
    refine ⟨by omega, ?_, ?_⟩
    · intro k hk
      rw [hbv]
      exact hle k (by omega)
    · intro k hk
      rw [hbv]
      exact hlt k hk
  | cons x xs ih =>
    intro full i bv bi hlen hsuff hbi hbv hle hlt
    have hx : full.getD i 0 = x := by
      have := hsuff 0 (by simp)
      simpa using this
    rw [argmaxAux]
    by_cases hcmp : bv < x
    · rw [if_pos hcmp]
      apply ih full (i + 1) x i
      · simp at hlen
        omega
      · intro k hk
        have := hsuff (k + 1) (by simpa using Nat.succ_lt_succ hk)
        rw [show i + 1 + k = i + (k + 1) by omega]
        simpa using this
      · omega
      · exact hx
      · intro k hk
        by_cases hki : k < i
        · exact le_of_lt (lt_of_le_of_lt (hle k hki) hcmp)
        · have : k = i := by omega
          subst this
          rw [hx]
      · intro k hk
        exact lt_of_le_of_lt (hle k hk) hcmp
    · rw [if_neg hcmp]
      apply ih full (i + 1) bv bi
      · simp at hlen
        omega
      · intro k hk
        have := hsuff (k + 1) (by simpa using Nat.succ_lt_succ hk)
        rw [show i + 1 + k = i + (k + 1) by omega]
        simpa using this
      · omega
      · exact hbv
      · intro k hk
        by_cases hki : k < i
        · exact hle k hki
        · have : k = i := by omega
          subst this
          rw [hx]
          exact le_of_not_lt hcmp
      · exact hlt

theorem argmaxIdx_isFirstMax (lp : List ℝ) (h : lp ≠ []) :
    isFirstMax lp (argmaxIdx lp) := by
  cases lp with
  | nil => exact absurd rfl h
  | cons x xs =>
    rw [argmaxIdx]
    apply argmaxAux_isFirstMax xs (x :: xs) 1 x 0
    · simp [Nat.add_comm]
    · intro k hk
      rw [show 1 + k = k + 1 by omega, List.getD_cons_succ]
    · omega
    · rfl
    · intro k hk
      have : k = 0 := by omega
      subst this
      simp
    · intro k hk
      omega

theorem candBefore_trans (a b c : BeamCand) (h1 : candBefore a b = true)
    (h2 : candBefore b c = true) : candBefore a c = true := by
  unfold candBefore at h1 h2 ⊢
  by_cases e1 : a.score = b.score
  · rw [if_pos e1] at h1
    by_cases e2 : b.score = c.score
    · rw [if_pos e2] at h2
      rw [if_pos (e1.trans e2)]
      simp only [decide_eq_true_eq] at h1 h2 ⊢
      omega
    · rw [if_neg e2] at h2
      rw [if_neg (by rw [e1]; exact e2)]
      rw [e1]
      exact h2
  · rw [if_neg e1] at h1
    simp only [decide_eq_true_eq] at h1
    by_cases e2 : b.score = c.score
    · rw [if_pos e2] at h2
      rw [if_neg (by rw [← e2]; exact e1)]
      simp only [decide_eq_true_eq]
      rw [← e2]
      exact h1
    · rw [if_neg e2] at h2
      simp only [decide_eq_true_eq] at h2
      rw [if_neg (by intro hcon; rw [hcon] at h1; linarith)]
      simp only [decide_eq_true_eq]
      linarith

theorem candBefore_total (a b : BeamCand) :
    (candBefore a b || candBefore b a) = true := by
  unfold candBefore
  by_cases e1 : a.score = b.score
  · rw [if_pos e1, if_pos e1.symm]
    simp only [Bool.or_eq_true, decide_eq_true_eq]
    omega
  · rw [if_neg e1, if_neg (fun hcon => e1 hcon.symm)]
    simp only [Bool.or_eq_true, decide_eq_true_eq]
    rcases lt_or_gt_of_ne e1 with h | h
    · right; exact h
    · left; exact h

theorem beamCands_singleton {σ : Type} (hyp : BeamHyp σ) (s2 : σ)
    (lp : List ℝ) :
    beamCands [(hyp, (s2, lp))] =
      lp.enum.map (fun q => BeamCand.mk (hyp.score + q.2) 0 q.1) := by
  simp [beamCands]

theorem mem_beamCands_singleton {σ : Type} (hyp : BeamHyp σ) (s2 : σ)
    (lp : List ℝ) (c : BeamCand) :
    c ∈ beamCands [(hyp, (s2, lp))] ↔
      ∃ v, v < lp.length ∧ c = BeamCand.mk (hyp.score + lp.getD v 0) 0 v := by
  rw [beamCands_singleton, List.mem_map]
  constructor
  · rintro ⟨q, hq, rfl⟩
    obtain ⟨q1, q2⟩ := q
    obtain ⟨hlt, hval⟩ := List.mem_enum hq
    refine ⟨q1, hlt, ?_⟩
    simp only [hval]
    rw [List.getD_eq_getElem _ _ hlt]
  · rintro ⟨v, hv, rfl⟩
    refine ⟨(v, lp.getD v 0), ?_, rfl⟩
    rw [List.getD_eq_getElem _ _ hv]
    have hv2 : v < lp.enum.length := by simpa [List.enum_length] using hv
    have := List.getElem_mem hv2
    rw [List.getElem_enum] at this
    exact this

theorem mergeSort_head_least (cands : List BeamCand) (h : BeamCand)
    (t : List BeamCand) (heq : cands.mergeSort candBefore = h :: t) :
    h ∈ cands ∧ ∀ c ∈ cands, c = h ∨ candBefore h c = true := by
  have hperm : (cands.mergeSort candBefore).Perm cands :=
    List.mergeSort_perm _ _
  have hsorted : List.Pairwise (fun a b => candBefore a b = true)
      (cands.mergeSort candBefore) :=
    List.sorted_mergeSort (fun a b c => candBefore_trans a b c)
      candBefore_total cands
  constructor
  · exact hperm.subset (heq ▸ List.mem_cons_self h t)
  · intro c hc
    have hc2 : c ∈ h :: t := heq ▸ hperm.symm.subset hc
    rcases List.mem_cons.mp hc2 with rfl | hc3
    · exact Or.inl rfl
    · rw [heq] at hsorted
      exact Or.inr ((List.pairwise_cons.mp hsorted).1 c hc3)

theorem beamSelect_one {σ : Type} (hyp : BeamHyp σ) (s2 : σ) (lp : List ℝ)
    (hlp : lp ≠ []) :
    beamSelect 1 [(hyp, (s2, lp))] =
      [⟨hyp.score + lp.getD (argmaxIdx lp) 0,
        hyp.emitted ++ [argmaxIdx lp], s2, argmaxIdx lp⟩] := by
  obtain ⟨hA, hB, hC⟩ := argmaxIdx_isFirstMax lp hlp
  have hlen : (beamCands [(hyp, (s2, lp))]).length = lp.length := by
    rw [beamCands_singleton]
    simp [List.enum_length]
  have hms_len : ((beamCands [(hyp, (s2, lp))]).mergeSort candBefore).length
      = lp.length := by
    rw [(List.mergeSort_perm _ _).length_eq, hlen]
  obtain ⟨h, t, heq⟩ : ∃ h t,
      (beamCands [(hyp, (s2, lp))]).mergeSort candBefore = h :: t := by
    cases hms : (beamCands [(hyp, (s2, lp))]).mergeSort candBefore with
    | nil =>
      rw [hms] at hms_len
      simp at hms_len
      exact absurd (List.length_eq_zero.mp hms_len.symm) hlp
    | cons h t => exact ⟨h, t, rfl⟩
  obtain ⟨hmem, hleast⟩ := mergeSort_head_least _ h t heq
  have hc0mem : BeamCand.mk (hyp.score + lp.getD (argmaxIdx lp) 0) 0
      (argmaxIdx lp) ∈ beamCands [(hyp, (s2, lp))] :=
    (mem_beamCands_singleton hyp s2 lp _).mpr ⟨argmaxIdx lp, hA, rfl⟩
  obtain ⟨v, hv, rfl⟩ := (mem_beamCands_singleton hyp s2 lp h).mp hmem
  have hveq : v = argmaxIdx lp := by
    rcases hleast _ hc0mem with heqc | hbef
    · have := congrArg BeamCand.v heqc
      simpa using this.symm
    · unfold candBefore at hbef
      by_cases es : (BeamCand.mk (hyp.score + lp.getD v 0) 0 v).score =
          (BeamCand.mk (hyp.score + lp.getD (argmaxIdx lp) 0) 0
            (argmaxIdx lp)).score
      · rw [if_pos es] at hbef
        simp only [decide_eq_true_eq] at hbef
        have hvle : v ≤ argmaxIdx lp := by
          rcases hbef with hcon | hand
          · omega
          · exact hand.2
        by_cases hne : v = argmaxIdx lp
        · exact hne
        · have hvlt : v < argmaxIdx lp := lt_of_le_of_ne hvle hne
          have es2 : hyp.score + lp.getD v 0 =
              hyp.score + lp.getD (argmaxIdx lp) 0 := es
          linarith [hC v hvlt]
      · rw [if_neg es] at hbef
        simp only [decide_eq_true_eq] at hbef
        have hlt : lp.getD (argmaxIdx lp) 0 < lp.getD v 0 := by
          have hbef2 : hyp.score + lp.getD (argmaxIdx lp) 0 <
              hyp.score + lp.getD v 0 := hbef
          linarith
        exact absurd (hB v hv) (not_le_of_lt hlt)
  subst hveq
  unfold beamSelect
  rw [heq]
  simp [List.filterMap]

theorem beamLoop_one_eq {σ : Type} (step : σ → Nat → σ × List ℝ)
    (hstep : ∀ s p, ((step s p).2) ≠ []) :
    ∀ (fuel : Nat) (s : σ) (prev : Nat) (sc : ℝ) (em : List Nat),
      em.getLast? ≠ some EOS_ID →
      beamLoop step 1 fuel [⟨sc, em, s, prev⟩] =
        em ++ greedyOne step fuel s prev := by
  intro fuel
  induction fuel with
  | zero =>
    intro s prev sc em hem
    simp [beamLoop, stripLastEOS, hem, greedyOne]
  | succ fuel ih =>
    intro s prev sc em hem
    have hsel := beamSelect_one (BeamHyp.mk sc em s prev) (step s prev).1
      (step s prev).2 (hstep s prev)
    rw [beamLoop]
    simp only [List.map_cons, List.map_nil]
    rw [hsel]
    rw [greedyOne]
    by_cases ht : argmaxIdx (step s prev).2 = EOS_ID
    · simp [ht, stripLastEOS, List.getLast?_concat, List.dropLast_concat]
    · have hrec := ih (step s prev).1 (argmaxIdx (step s prev).2)
        (sc + (step s prev).2.getD (argmaxIdx (step s prev).2) 0)
        (em ++ [argmaxIdx (step s prev).2])
        (by rw [List.getLast?_concat]; intro hcon
            exact ht (Option.some.inj hcon))
      simp [ht, List.getLast?_concat]
      simpa using hrec

theorem greedyLoop_singleton {σ : Type} (step : σ → Nat → σ × List ℝ)
    (L : Nat) :
    ∀ (n : Nat) (s : σ) (prev : Nat) (out : List Nat) (ml : Nat),
      ml + n = L →
      (greedyLoop (liftStep step) 1 L
        ⟨(s, prev), [false], 0, ml, [out]⟩).outputs =
        [out ++ greedyOne step n s prev] := by
  intro n
  induction n with
  | zero =>
    intro s prev out ml hml
    rw [greedyLoop, dif_neg (fun hcon =>
      absurd hcon.2 (show ¬ ml < L by omega))]
    simp [greedyOne]
  | succ n ih =>
    intro s prev out ml hml
    rw [greedyLoop, dif_pos ⟨Nat.zero_lt_one, show ml < L by omega⟩]
    by_cases ht : argmaxIdx (step s prev).2 = EOS_ID
    · show (greedyLoop (liftStep step) 1 L
        ⟨((step s prev).1, argmaxIdx (step s prev).2),
          (stepAll [false] [argmaxIdx (step s prev).2] [out]).1,
          0 + (stepAll [false] [argmaxIdx (step s prev).2] [out]).2.2,
          ml + 1,
          (stepAll [false] [argmaxIdx (step s prev).2] [out]).2.1⟩).outputs = _
      have hsa : stepAll [false] [argmaxIdx (step s prev).2] [out] =
          ([true], [out], 1) := by
        simp [stepAll, ht]
      rw [hsa]
      rw [greedyLoop, dif_neg (fun hcon =>
        absurd hcon.1 (show ¬ 0 + 1 < 1 by omega))]
      rw [greedyOne]
      simp [ht]
    · show (greedyLoop (liftStep step) 1 L
        ⟨((step s prev).1, argmaxIdx (step s prev).2),
          (stepAll [false] [argmaxIdx (step s prev).2] [out]).1,
          0 + (stepAll [false] [argmaxIdx (step s prev).2] [out]).2.2,
          ml + 1,
          (stepAll [false] [argmaxIdx (step s prev).2] [out]).2.1⟩).outputs = _
      have hsa : stepAll [false] [argmaxIdx (step s prev).2] [out] =
          ([false], [out ++ [argmaxIdx (step s prev).2]], 0) := by
        simp [stepAll, ht]
      rw [hsa]
      show (greedyLoop (liftStep step) 1 L
        ⟨((step s prev).1, argmaxIdx (step s prev).2), [false], 0, ml + 1,
          [out ++ [argmaxIdx (step s prev).2]]⟩).outputs =
        [out ++ greedyOne step (n + 1) s prev]
      have hrec := ih (step s prev).1 (argmaxIdx (step s prev).2)
        (out ++ [argmaxIdx (step s prev).2]) (ml + 1) (by omega)
      rw [hrec]
      rw [greedyOne]
      simp [ht]

/-- C3.  With beam width `K = 1`, the beam-search engine produces
exactly the same symbol sequences as the greedy engine, for every batch
(including the empty batch) and every decode-step oracle with a
non-empty vocabulary; moreover the per-example greedy decoder is
exactly the batched greedy loop of `Seq2SeqModel.predict` run on a
batch of one. -/
theorem beam_width_one_eq_greedy {σ : Type} (step : σ → Nat → σ × List ℝ)
    (maxDecLen : Nat) (inits : List σ) (s0 : σ)
    (hstep : ∀ s p, ((step s p).2) ≠ []) :
    beamDecodeBatch step 1 maxDecLen inits =
      greedyDecodeBatch step maxDecLen inits ∧
    greedyPredict (liftStep step) 1 maxDecLen (s0, SOS_ID) =
      [greedyDecodeOne step maxDecLen s0] := by
  constructor
  · unfold beamDecodeBatch greedyDecodeBatch
    apply List.map_congr_left
    intro s1 _
    unfold beamDecodeOne greedyDecodeOne
    have := beamLoop_one_eq step hstep maxDecLen s1 SOS_ID 0 [] (by simp)
    simpa using this
  · show (greedyLoop (liftStep step) 1 maxDecLen
      ⟨(s0, SOS_ID), List.replicate 1 false, 0, 0,
        List.replicate 1 []⟩).outputs = _
    have := greedyLoop_singleton step maxDecLen maxDecLen s0 SOS_ID [] 0
      (by omega)
    simpa [greedyDecodeOne] using this

/- Witness for C3 at a concrete oracle with a four-symbol vocabulary
and a batch of one. -/
theorem beam_width_one_eq_greedy_witness :
    beamDecodeBatch (fun _ _ => ((), [0, 0, 0, 1])) 1 2 [()] =
      greedyDecodeBatch (fun _ _ => ((), [0, 0, 0, 1])) 2 [()] ∧
    greedyPredict (liftStep (fun _ _ => ((), [0, 0, 0, 1]))) 1 2 ((), SOS_ID) =
      [greedyDecodeOne (fun _ _ => ((), [0, 0, 0, 1])) 2 ()] :=
  beam_width_one_eq_greedy (fun _ _ => ((), [0, 0, 0, 1])) 2 [()] ()
    (fun _ _ => by simp)

end LexEnLem
